import Mathlib

/-!
Verification development for the PaperRename repository (src/rename.py and
src/map_manager.py).  The Python source is shallowly embedded: pure string
functions become Lean functions on `List Char` / `String`, the regexes of the
source are translated into their backtracking semantics on ASCII text, the
HTTP registry is an oracle parameter, and the persistent venue table plus the
filesystem are explicit state.  All embedded inputs considered here are ASCII;
`unicodedata.normalize('NFKC', ·)` is the identity on ASCII and is modelled as
such, with the superscript removal kept explicit.
-/

namespace PaperRename

/-! ## Character classes (ASCII semantics of the Python regex classes) -/

/-- Python `\s` on the ASCII range: space, tab, newline, carriage return,
vertical tab, form feed.  Used for `str.strip()` and `\s` in the regexes. -/
def isPySpace (c : Char) : Bool :=
  c = ' ' || c = '\t' || c = '\n' || c = '\r' || c = '\x0b' || c = '\x0c'

/-- Python `\w` on the ASCII range (used for the `\b` word boundary). -/
def isWordChar (c : Char) : Bool :=
  c.isAlpha || c.isDigit || c = '_'

/-- The character class `[-._;()/:A-Z0-9]` of `CROSSREF_DOI_RE`, with the
`(?i)` flag making the letter range case-insensitive. -/
def isBodyChar (c : Char) : Bool :=
  c.isAlpha || c.isDigit || c = '-' || c = '.' || c = '_' || c = ';' ||
  c = '(' || c = ')' || c = '/' || c = ':'

/-- The lookahead class `[\s\)\]\}\.,;:<>\"\'\?]` of `CROSSREF_DOI_RE`
(the right boundary of a DOI match). -/
def isBoundaryChar (c : Char) : Bool :=
  isPySpace c || c = ')' || c = ']' || c = '}' || c = '.' || c = ',' ||
  c = ';' || c = ':' || c = '<' || c = '>' || c = '"' || c = '\'' || c = '?'

/-! ## Generic string helpers shared by the embedded functions -/

/-- Case-insensitive "starts with" (ASCII lowering, `pat` given lowercase):
models matching a literal alternative of an `re.IGNORECASE` pattern at the
current position. -/
def startsWithCI (pat : List Char) (t : List Char) : Bool :=
  (t.take pat.length).map Char.toLower = pat

/-- Case-insensitive substring containment, models Python
`pat in text` after both sides were lowered (or an unanchored
`re.search` for a literal pattern under `re.IGNORECASE`). -/
def containsCI (pat : List Char) : List Char → Bool
  | [] => startsWithCI pat []
  | c :: t => startsWithCI pat (c :: t) || containsCI pat t

/-- Python `str.strip(chars)`: drop characters satisfying `p` from both ends. -/
def stripChars (p : Char → Bool) (l : List Char) : List Char :=
  ((l.dropWhile p).reverse.dropWhile p).reverse

/-- Python `str.strip()` (no argument): strip ASCII whitespace. -/
def pyStrip (l : List Char) : List Char := stripChars isPySpace l

/-! ## `smart_filename_transform` (src/rename.py lines 30-47) -/

/-- One `str.replace(old, new)` where both sides are single characters. -/
def replaceAll (old new : Char) (l : List Char) : List Char :=
  l.map (fun c => if c = old then new else c)

/-- One `str.replace(old, '')` where `old` is a single character. -/
def removeAll (old : Char) (l : List Char) : List Char :=
  l.filter (fun c => !(c = old))

/-- The sequential `filename.replace(old, new)` loop over the `mapping`
dict of `smart_filename_transform`, in the source's insertion order. -/
def applyMapping (l : List Char) : List Char :=
  removeAll '>' (removeAll '<' (replaceAll '"' '\'' (removeAll '?'
    (removeAll '*' (replaceAll '|' '-' (replaceAll '\\' '-'
      (replaceAll '/' '-' (replaceAll ':' '=' (replaceAll ' ' '_' l)))))))))

/-- `re.sub(r'c{2,}', 'c', ·)` for a single character `c`: collapse every run
of two or more `c` into a single `c`. -/
def collapseRuns (c : Char) : List Char → List Char
  | [] => []
  | [a] => [a]
  | a :: b :: rest =>
      if a = c && b = c then collapseRuns c (b :: rest)
      else a :: collapseRuns c (b :: rest)

/-- The strip set `'_-='` of the final `filename.strip('_-=')`. -/
def isStripChar (c : Char) : Bool := c = '_' || c = '-' || c = '='

/-- `smart_filename_transform` on character lists. -/
def smartTransform (l : List Char) : List Char :=
  stripChars isStripChar (collapseRuns '-' (collapseRuns '_' (applyMapping l)))

/-- `smart_filename_transform` (src/rename.py lines 30-47). -/
def smart_filename_transform (s : String) : String :=
  ⟨smartTransform s.data⟩

/-! ## `_preclean_text` (src/rename.py lines 50-54)

`unicodedata.normalize('NFKC', text)` is the identity on the ASCII texts
modelled here, and on those texts the superscript translate step never
fires either (on non-ASCII text NFKC would already have turned `¹` into the
ASCII digit `1` before the translate step, so the model is scoped to ASCII
inputs, on which it is exact). -/

/-- The superscript digits removed by `_preclean_text`. -/
def superscriptDigits : List Char :=
  ['¹', '²', '³', '⁴', '⁵', '⁶', '⁷', '⁸', '⁹', '⁰']

/-- `_preclean_text`: NFKC (identity on ASCII) then superscript removal. -/
def precleanText (l : List Char) : List Char :=
  l.filter (fun c => !(superscriptDigits.contains c))

/-! ## The `CROSSREF_DOI_RE` scanner (src/rename.py lines 14-16, 105)

`(?i)\b10\.\d{4,9}/[-._;()/:A-Z0-9]+(?=$|[\s\)\]\}\.,;:<>\"\'\?])` with
Python backtracking semantics:

* `\b`: the previous character (if any) is not a word character;
* `\d{4,9}` is greedy followed by the literal `/`: since `/` is not a digit,
  this matches exactly when the maximal digit run after `10.` has length
  4 to 9 and is followed by `/`;
* the greedy body `[...]+` is followed by a lookahead, so it backtracks:
  the match length is the largest `k ≥ 1` such that either `k` is the whole
  maximal body run and the character after it (if any) is in the lookahead
  class, or the `k`-th character of the run is itself in the lookahead
  class. -/

/-- The length the greedy body settles on after backtracking against the
lookahead: `run` is the maximal run of body characters and `after` the text
following it.  Returns the largest admissible `k ≥ 1`, if any. -/
def bodyMatchLen (run after : List Char) : Option Nat :=
  if after.head?.all isBoundaryChar then
    if run.length = 0 then none else some run.length
  else
    match (List.range run.length).filter
        (fun k => 0 < k && isBoundaryChar (run.getD k ' ')) with
    | [] => none
    | l => l.getLast?

/-- One match attempt of `CROSSREF_DOI_RE` at the current position.
`prev` is the character just before the position (for `\b`).  On success,
returns the matched substring and the remaining text after the match. -/
def tryMatchAt (prev : Option Char) (s : List Char) : Option (List Char × List Char) :=
  if prev.all (fun c => !(isWordChar c)) then
    match s with
    | '1' :: '0' :: '.' :: rest =>
        let ds := rest.takeWhile Char.isDigit
        if 4 ≤ ds.length && ds.length ≤ 9 then
          match rest.drop ds.length with
          | '/' :: body =>
              let run := body.takeWhile isBodyChar
              match bodyMatchLen run (body.drop run.length) with
              | some k =>
                  some ('1' :: '0' :: '.' :: (ds ++ '/' :: run.take k), body.drop k)
              | none => none
          | _ => none
        else none
    | _ => none
  else none

/-- The `finditer` scan: try a match at every position, continuing after the
end of each match (non-overlapping, leftmost).  `fuel` bounds the number of
steps; `scanDOIs` supplies `length + 1`, which always suffices because every
step consumes at least one character. -/
def scanAux : Nat → Option Char → List Char → List (List Char)
  | 0, _, _ => []
  | _ + 1, _, [] => []
  | fuel + 1, prev, c :: t =>
      match tryMatchAt prev (c :: t) with
      | some (m, rest) => m :: scanAux fuel m.getLast? rest
      | none => scanAux fuel (some c) t

/-- All (non-overlapping) matches of `CROSSREF_DOI_RE` in the text. -/
def scanDOIs (l : List Char) : List (List Char) :=
  scanAux (l.length + 1) none l

/-! ## `clean_doi_list` (src/rename.py lines 73-100)

The contamination pattern `(Files|PDF|Abstract|Full.*Text|Download).*$`
under `re.IGNORECASE`: a match at a position requires one of the literal
alternatives there (for `Full.*Text`, a later `Text` on the same line), and
the trailing `.*$` requires that no newline follows except possibly a final
one (`$` also matches just before a final newline, in which case that final
newline survives the substitution). -/

/-- Can `.*$` complete from here: the remaining text contains no newline,
or its only newline is the final character. -/
def tailOk (u : List Char) : Bool :=
  u.all (fun c => !(c = '\n')) ||
    (u.getLast? = some '\n' && u.dropLast.all (fun c => !(c = '\n')))

/-- Does `Full.*Text` starting with the `.*` part match from here
(followed by a completing `.*$`)? -/
def hasTextAfter : List Char → Bool
  | [] => false
  | c :: u =>
      (startsWithCI ['t', 'e', 'x', 't'] (c :: u) && tailOk ((c :: u).drop 4)) ||
      (!(c = '\n') && hasTextAfter u)

/-- Does the contamination pattern match at the current position? -/
def delMatch (t : List Char) : Bool :=
  (startsWithCI ['f', 'i', 'l', 'e', 's'] t && tailOk (t.drop 5)) ||
  (startsWithCI ['p', 'd', 'f'] t && tailOk (t.drop 3)) ||
  (startsWithCI ['a', 'b', 's', 't', 'r', 'a', 'c', 't'] t && tailOk (t.drop 8)) ||
  (startsWithCI ['f', 'u', 'l', 'l'] t && hasTextAfter (t.drop 4)) ||
  (startsWithCI ['d', 'o', 'w', 'n', 'l', 'o', 'a', 'd'] t && tailOk (t.drop 8))

/-- `re.sub(r'(Files|PDF|Abstract|Full.*Text|Download).*$', '', doi, re.I)`:
cut the text at the first position where the pattern matches.  When the
matched span stops just before a final newline, that newline survives. -/
def contamCut : List Char → List Char
  | [] => []
  | c :: t =>
      if delMatch (c :: t) then
        if (c :: t).getLast? = some '\n' then ['\n'] else []
      else c :: contamCut t

/-- `re.match(r'^10\.\d+/.+[^.]$', ·)`: after `10.`, a nonempty digit run,
`/`, then `.+[^.]` reaching the end of the string (`$` may also sit before a
final newline; `.` never matches a newline). -/
def matchShape (l : List Char) : Bool :=
  match l with
  | '1' :: '0' :: '.' :: rest =>
      match rest.drop (rest.takeWhile Char.isDigit).length with
      | '/' :: rr =>
          !((rest.takeWhile Char.isDigit).isEmpty) &&
          ((2 ≤ rr.length && rr.dropLast.all (fun c => !(c = '\n')) &&
              rr.getLast?.all (fun c => !(c = '.'))) ||
           (3 ≤ rr.length && rr.getLast? = some '\n' &&
              rr.dropLast.dropLast.all (fun c => !(c = '\n')) &&
              rr.dropLast.getLast?.all (fun c => !(c = '.'))))
      | _ => false
  | _ => false

/-- `clean_doi_list` (src/rename.py lines 73-100). -/
def clean_doi_list (cands : List String) : List String :=
  cands.filterMap (fun doi =>
    if doi = "" then none
    else
      let dc : List Char := pyStrip (contamCut doi.data)
      if matchShape dc && !(dc.getLast? = some '.') then some ⟨dc⟩ else none)

/-! ## `prefer_specific_dois` (src/rename.py lines 57-71) -/

/-- The continuation set checked on the character right after a prefix. -/
def isContChar (c : Char) : Bool :=
  c = '.' || c = '-' || c = '_' || c = '/'

/-- The drop test of `prefer_specific_dois`: some other candidate `d`
extends `c` and the next character is a continuation character. -/
def hasMoreSpecific (cands : List String) (c : String) : Bool :=
  cands.any (fun d =>
    !(d = c) && c.data.isPrefixOf d.data && c.length < d.length &&
      isContChar (d.data.getD c.length ' '))

/-- Stable insertion for a descending sort by length (Python's stable
`sorted(·, key=len, reverse=True)`). -/
def insertByLen (x : String) : List String → List String
  | [] => [x]
  | y :: t => if y.length < x.length then x :: y :: t else y :: insertByLen x t

/-- Stable descending sort by length. -/
def sortByLenDesc (l : List String) : List String :=
  l.foldr insertByLen []

/-- `prefer_specific_dois` (src/rename.py lines 57-71).  `sorted(set(keep))`
deduplicates; Python's set iteration order is unspecified, so the model fixes
one (`List.dedup`); every property proved below is order-insensitive. -/
def prefer_specific_dois (cands : List String) : List String :=
  sortByLenDesc (cands.filter (fun c => !(hasMoreSpecific cands c))).dedup

/-- `extract_all_dois_from_text` (src/rename.py lines 103-107).  The
`list({...})` set of match strings is modelled by `List.dedup` (order
unspecified in Python; the properties proved are order-insensitive). -/
def extract_all_dois_from_text (s : String) : List String :=
  prefer_specific_dois
    (clean_doi_list (((scanDOIs (precleanText s.data)).map
      (fun l => (⟨l⟩ : String))).dedup))

/-! ## `extract_paper_title` (src/rename.py lines 202-240)

The ignore patterns are `re.search` calls under `re.IGNORECASE`; on the
ASCII lines modelled here they reduce to the following checks.  Note that
`^doi\s*:?` succeeds on any line starting with `doi` (both `\s*` and `:?`
may be empty), which subsumes `^DOI\s`; both are kept literally. -/

/-- Python `str.splitlines()` restricted to `\n` separators (the texts
modelled here contain no other line-break characters). -/
def splitLinesNL (l : List Char) : List (List Char) :=
  l.splitOn '\n'

/-- One line matches some ignore pattern (src/rename.py lines 207-210). -/
def ignoreLine (l : List Char) : Bool :=
  startsWithCI ['d', 'o', 'i'] l ||
  (startsWithCI ['d', 'o', 'i'] l && (l.drop 3).head?.any isPySpace) ||
  containsCI "proceedings of".data l ||
  containsCI "arxiv preprint".data l ||
  containsCI "copyright".data l ||
  containsCI "www.".data l ||
  (!(l.isEmpty) && l.all Char.isDigit) ||
  (!((l.takeWhile Char.isDigit).isEmpty) &&
    ((l.dropWhile Char.isDigit).dropWhile isPySpace).head? = some '©') ||
  containsCI "license".data l

/-- Python `str.isupper()` on ASCII: at least one letter and no lowercase
letter. -/
def isUpperLine (l : List Char) : Bool :=
  l.any Char.isAlpha && l.all (fun c => !(c.isAlpha) || c.isUpper)

/-- Python single-character `str.isupper()` used on `candidates[1][0]`. -/
def charIsUpper (c : Char) : Bool := c.isAlpha && c.isUpper

/-- `re.sub(r"\s+", " ", ·)`: map every whitespace character to a space,
then collapse runs of spaces. -/
def collapseWS (l : List Char) : List Char :=
  collapseRuns ' ' (l.map (fun c => if isPySpace c then ' ' else c))

/-- `extract_paper_title` (src/rename.py lines 202-240). -/
def extract_paper_title (s : String) : Option String :=
  let lines := ((splitLinesNL s.data).map pyStrip).filter (fun l => !(l.isEmpty))
  let filtered := lines.filter (fun l => !(ignoreLine l))
  if filtered.isEmpty then none
  else
    let candidates := filtered.filter (fun l =>
      5 < l.length && l.length < 300 && !(isUpperLine l && 10 < l.length))
    if candidates.isEmpty then none
    else
      let t0 := candidates.headD []
      let t1 :=
        match candidates.tail.head? with
        | some c1 =>
            if (c1.headD ' ' |> fun c => charIsUpper c || c.isDigit) &&
               !(c1.getLast? = some '.') then
              let combined := t0 ++ ' ' :: c1
              if combined.length < 300 then combined else t0
            else t0
        | none => t0
      some ⟨pyStrip (collapseWS t1)⟩

/-! ## Metadata model (CSL JSON fields used by src/rename.py)

The registry returns a CSL-JSON dict; the fields the source reads are
modelled structurally: `title` / `container-title` may be absent, a scalar
string or a list of strings, the four date fields may each be absent or
carry a `date-parts` list-of-lists (entries are ints or null), `author` is a
list (only emptiness is observed) and `type` an optional string. -/

/-- A CSL field that is a string, a list of strings, or absent. -/
inductive StrField where
  | absent
  | scalar (s : String)
  | strList (l : List String)
deriving DecidableEq

/-- The `date-parts` payload of a CSL date field. -/
abbrev DateParts := List (List (Option Int))

/-- The metadata record as observed by the source. -/
structure Meta where
  author : List String
  type : Option String
  title : StrField
  containerTitle : StrField
  issued : Option DateParts
  publishedPrint : Option DateParts
  publishedOnline : Option DateParts
  created : Option DateParts
deriving DecidableEq

/-- `_get_title` / `_get_container` field access (src/rename.py lines
154-165): first element when the field is a list, else the scalar,
stripped; empty string when absent or empty. -/
def getStrField : StrField → String
  | .absent => ""
  | .scalar s => ⟨pyStrip s.data⟩
  | .strList l =>
      match l.head? with
      | some s => ⟨pyStrip s.data⟩
      | none => ""

/-- `_get_title` (src/rename.py lines 154-158). -/
def get_title (m : Meta) : String := getStrField m.title

/-- `_get_container` (src/rename.py lines 161-165). -/
def get_container (m : Meta) : String := getStrField m.containerTitle

/-- `year_from` inside `_get_year`: `int(dp.get("date-parts", [[None]])[0][0])`
with any failure mapped to `None`. -/
def yearFrom (dp : DateParts) : Option Int :=
  match dp.head? with
  | some (some y :: _) => some y
  | _ => none

/-- `_get_year` (src/rename.py lines 139-151): first key, in order, whose
parsed year is truthy (`if y:` rejects both `None` and `0`). -/
def get_year (m : Meta) : Option Int :=
  let tryKey : Option DateParts → Option Int := fun o =>
    match o with
    | none => none
    | some dp =>
        match yearFrom dp with
        | some y => if y = 0 then none else some y
        | none => none
  match tryKey m.issued with
  | some y => some y
  | none =>
      match tryKey m.publishedPrint with
      | some y => some y
      | none =>
          match tryKey m.publishedOnline with
          | some y => some y
          | none => tryKey m.created

/-! ## `fetch_doi_metadata` (src/rename.py lines 110-136)

`_try_fetch` performs the HTTP lookup; it is modelled as an oracle
`tryF : String → Option Meta` (`none` covers non-200 responses and
transport errors, which the source logs and swallows). -/

/-- Do the last `k` characters exist (`len(doi) > k`) and are they all
digits (`doi[-k:].isdigit()`)? -/
def lastDigits (l : List Char) (k : Nat) : Bool :=
  k < l.length && (l.drop (l.length - k)).all Char.isDigit

/-- `fetch_doi_metadata`: try as-is, then with one, then with two trailing
digits stripped. -/
def fetch_doi_metadata (tryF : String → Option Meta) (doi : String) : Option Meta :=
  match tryF doi with
  | some m => some m
  | none =>
      match (if lastDigits doi.data 1 then tryF ⟨doi.data.dropLast⟩ else none) with
      | some m => some m
      | none =>
          if lastDigits doi.data 2 then tryF ⟨doi.data.dropLast.dropLast⟩ else none

/-! ## `extract_best_doi_from_first_page` (src/rename.py lines 242-285)

PDF opening and first-page text extraction are external collaborators; the
model receives the extracted first-page text directly. -/

/-- The preferred-type set (src/rename.py line 272). -/
def preferredTypes : List String :=
  ["journal-article", "proceedings-article", "posted-content", "report"]

/-- The strict first pass: metadata with a truthy `author` and a preferred
`type`. -/
def strictOk (tryF : String → Option Meta) (doi : String) : Bool :=
  match fetch_doi_metadata tryF doi with
  | some m => !(m.author.isEmpty) && m.type.any (fun t => preferredTypes.contains t)
  | none => false

/-- The relaxed second pass: any metadata at all. -/
def relaxedOk (tryF : String → Option Meta) (doi : String) : Bool :=
  (fetch_doi_metadata tryF doi).isSome

/-- The candidate-selection part of `extract_best_doi_from_first_page`
(src/rename.py lines 267-285), on the already-extracted page text. -/
def extract_best_doi (tryF : String → Option Meta) (text : String) :
    Option String × Option String :=
  let candidates := extract_all_dois_from_text text
  let title := extract_paper_title text
  match candidates.find? (strictOk tryF) with
  | some doi => (some doi, title)
  | none =>
      match candidates.find? (relaxedOk tryF) with
      | some doi => (some doi, title)
      | none => (none, title)

/-! ## The venue table (src/map_manager.py) and `generate_filename`
(src/rename.py lines 168-185)

The JSON table is a Python dict persisted whole on every mutation; a dict
preserves insertion order, so it is modelled as an association list with
unique keys.  `main` loads the table once into the global `ACRONYM_MAP`
(`mem` below); `insert_entry` re-reads and re-writes the file (`disk`
below), so lookups always use the startup snapshot while insertions hit the
current file.  `didInsert` records whether `insert_entry` was called (a
disk write), which is observable behaviour of the source. -/

/-- The venue table: full name to short code, in insertion order. -/
abbrev Table := List (String × String)

/-- Python `data[key] = value` on a dict: update in place if the key
exists, else append. -/
def dictInsert (t : Table) (k v : String) : Table :=
  if t.any (fun e => e.1 = k) then
    t.map (fun e => if e.1 = k then (k, v) else e)
  else t ++ [(k, v)]

/-- The lookup test `full.lower() in container.lower()` of the acronym
loop. -/
def venueMatches (container : String) (full : String) : Bool :=
  containsCI (full.data.map Char.toLower) (container.data.map Char.toLower)

/-- Result of one `generate_filename` call: the filename, the table file
after the call, and whether `insert_entry` was invoked. -/
structure GenResult where
  filename : String
  disk : Table
  didInsert : Bool
deriving DecidableEq

/-- `generate_filename` (src/rename.py lines 168-185).  `mem` is the global
`ACRONYM_MAP` snapshot used by the `for ... else` lookup; `disk` is the
persistent table that `insert_entry` mutates. -/
def generate_filename (mem : Table) (disk : Table) (m : Meta) : GenResult :=
  let title := get_title m
  let year : String :=
    match get_year m with
    | some y => toString y
    | none => "unknown"
  let container0 : String := if get_container m = "" then "unknown" else get_container m
  let titleSafe : String :=
    smart_filename_transform (if title = "" then "untitled" else title)
  match mem.find? (fun e => venueMatches container0 e.1) with
  | some e =>
      { filename := "[" ++ year ++ "]+[" ++ e.2 ++ "]--" ++ titleSafe,
        disk := disk, didInsert := false }
  | none =>
      { filename := "[" ++ year ++ "]+[" ++
          smart_filename_transform container0 ++ "]--" ++ titleSafe,
        disk := dictInsert disk container0 "Unkonwn", didInsert := true }

/-! ## The per-document orchestration of `main` (src/rename.py lines 303-346)

The filesystem is the list of existing paths; `os.rename` moves a path;
`os.path.exists` is membership.  A document input is its path plus the
first-page text the PDF collaborator would extract. -/

/-- `os.path.dirname` (POSIX). -/
def dirnameModel (p : String) : String :=
  match (p.data.reverse.findIdx? (fun c => c = '/')) with
  | none => ""
  | some r =>
      let head := p.data.take (p.data.length - r)
      if head.all (fun c => c = '/') then ⟨head⟩
      else ⟨(head.reverse.dropWhile (fun c => c = '/')).reverse⟩

/-- `os.path.join` (POSIX, two arguments). -/
def joinModel (d f : String) : String :=
  if f.data.head? = some '/' then f
  else if d = "" || d.data.getLast? = some '/' then d ++ f
  else d ++ "/" ++ f

/-- The filename decision of one `main` iteration (src/rename.py lines
310-336), before the filesystem steps. -/
inductive FnameOutcome where
  | raise
  | skip
  | name (f : String)
deriving DecidableEq

/-- Lines 310-336 of `main`: pick the DOI, refetch its metadata and build
the filename.  `raise` models the uncaught `TypeError` of
`smart_filename_transform(None)` when neither a DOI nor a title was found
(caught at the per-document boundary); `skip` models the `continue` when
the metadata refetch fails. -/
def doc_filename (tryF : String → Option Meta) (mem disk : Table)
    (text : String) : Table × FnameOutcome :=
  match extract_best_doi tryF text with
  | (none, none) => (disk, .raise)
  | (none, some t) =>
      (disk, .name ("[year]-[Conference]++" ++ smart_filename_transform t))
  | (some doi, _) =>
      match fetch_doi_metadata tryF doi with
      | none => (disk, .skip)
      | some m =>
          let g := generate_filename mem disk m
          (g.disk, .name g.filename)

/-- One document: its path and the text of its first page. -/
structure DocInput where
  path : String
  text : String
deriving DecidableEq

/-- State after one per-document iteration: table file, filesystem, and the
exception (if any) caught at the per-document boundary. -/
structure StepResult where
  disk : Table
  fs : List String
  err : Option String
deriving DecidableEq

/-- One iteration of the `main` loop (src/rename.py lines 303-346): the
initial `os.path.isfile` guard, the filename decision, the
existing-target check, and the rename. -/
def docStep (tryF : String → Option Meta) (mem : Table) (d : DocInput)
    (disk : Table) (fs : List String) : StepResult :=
  if fs.contains d.path then
    match doc_filename tryF mem disk d.text with
    | (disk', .raise) => ⟨disk', fs, some "TypeError"⟩
    | (disk', .skip) => ⟨disk', fs, none⟩
    | (disk', .name f) =>
        let np := joinModel (dirnameModel d.path) (f ++ ".pdf")
        if fs.contains np then ⟨disk', fs, none⟩
        else ⟨disk', np :: fs.erase d.path, none⟩
  else ⟨disk, fs, none⟩

/-- The batch loop of `main`: every per-document exception is caught and
the loop continues (src/rename.py lines 345-346). -/
def runBatch (tryF : String → Option Meta) (mem : Table) :
    List DocInput → Table → List String → Table × List String
  | [], disk, fs => (disk, fs)
  | d :: ds, disk, fs =>
      let r := docStep tryF mem d disk fs
      runBatch tryF mem ds r.disk r.fs

/-! ## Spec-modelled title resolution (spec §4.4 Contract B)

The source under `src/` contains no bibliographic-search call; the
following definitions model the spec's Contract B and its fallback
sentence, for comparison with the source's behaviour. -/

/-- Modelled from the spec: Contract B `resolve_by_title` — "Issues a
bibliographic-search query against the registry, takes the top-ranked hit,
then resolves it via Contract A; accepts the result only if the returned
metadata includes at least one author."  No such function exists in the
source; `search` is the bibliographic-search oracle returning the ranked
identifiers. -/
def resolve_by_title_spec (search : String → List String)
    (tryF : String → Option Meta) (title : String) : Option (String × Meta) :=
  match (search title).head? with
  | none => none
  | some id0 =>
      match fetch_doi_metadata tryF id0 with
      | none => none
      | some m => if m.author.isEmpty then none else some (id0, m)

/-- Modelled from the spec: the per-document filename decision as §4.4
prescribes it — "If no candidate resolves, the document falls back to
title-based resolution; if that also fails, the document is emitted with
placeholder year/venue and the best-effort title."  Identical to
`doc_filename` except for the title-resolution fallback. -/
def doc_filename_spec (search : String → List String)
    (tryF : String → Option Meta) (mem disk : Table)
    (text : String) : Table × FnameOutcome :=
  match extract_best_doi tryF text with
  | (none, none) => (disk, .raise)
  | (none, some t) =>
      match resolve_by_title_spec search tryF t with
      | some (_, m) =>
          let g := generate_filename mem disk m
          (g.disk, .name g.filename)
      | none =>
          (disk, .name ("[year]-[Conference]++" ++ smart_filename_transform t))
  | (some doi, _) =>
      match fetch_doi_metadata tryF doi with
      | none => (disk, .skip)
      | some m =>
          let g := generate_filename mem disk m
          (g.disk, .name g.filename)

/-! ## Helper lemmas -/

theorem toLower_idem (c : Char) : c.toLower.toLower = c.toLower := by
  simp only [Char.toLower]
  by_cases h : c.toNat ≥ 65 ∧ c.toNat ≤ 90
  · rw [if_pos h]
    have hval : (c.toNat + 32).isValidChar := by left; omega
    have hv : (Char.ofNat (c.toNat + 32)).toNat = c.toNat + 32 := by
      rw [Char.ofNat, dif_pos hval]
      rfl
    have hn : ¬((Char.ofNat (c.toNat + 32)).toNat ≥ 65 ∧
        (Char.ofNat (c.toNat + 32)).toNat ≤ 90) := by
      rw [hv]; omega
    rw [if_neg hn]
  · rw [if_neg h, if_neg h]

theorem startsWithCI_lowered_self (l : List Char) :
    startsWithCI (l.map Char.toLower) (l.map Char.toLower) = true := by
  have hcomp : Char.toLower ∘ Char.toLower = Char.toLower := funext toLower_idem
  simp only [startsWithCI, List.take_length, List.map_map, hcomp, decide_eq_true_eq]

theorem containsCI_lowered_self (l : List Char) :
    containsCI (l.map Char.toLower) (l.map Char.toLower) = true := by
  cases h : l.map Char.toLower with
  | nil => simp [containsCI, startsWithCI]
  | cons c t =>
      have := startsWithCI_lowered_self l
      rw [h] at this
      simp [containsCI, this]

theorem venueMatches_refl (s : String) : venueMatches s s = true := by
  simpa [venueMatches] using containsCI_lowered_self s.data

/-- If the acronym lookup finds no entry for `c`, then `c` is not a key of
the table (a key equal to `c` would match itself). -/
theorem not_key_of_find?_none {mem : Table} {c : String}
    (h : mem.find? (fun e => venueMatches c e.1) = none) :
    ∀ v, (c, v) ∉ mem := by
  intro v hv
  have := List.find?_eq_none.mp h _ hv
  simp only at this
  exact this (venueMatches_refl c)

/-! ## C8: filename synthesis is deterministic -/

/-- C8: `generate_filename` is deterministic: two runs on equal metadata and
equal table states (same entries in the same insertion order, which is what
a Python dict preserves) produce identical results. -/
theorem C8_generate_filename_deterministic
    (mem disk : Table) (m : Meta) (mem' disk' : Table) (m' : Meta)
    (h1 : mem = mem') (h2 : disk = disk') (h3 : m = m') :
    generate_filename mem disk m = generate_filename mem' disk' m' := by
  subst h1; subst h2; subst h3; rfl

theorem C8_witness :
    generate_filename [] []
      ⟨["A"], some "journal-article", .scalar "Title", .scalar "Conf",
        some [[some 2021]], none, none, none⟩ =
    generate_filename [] []
      ⟨["A"], some "journal-article", .scalar "Title", .scalar "Conf",
        some [[some 2021]], none, none, none⟩ :=
  C8_generate_filename_deterministic _ _ _ _ _ _ rfl rfl rfl

/-! ## C3: venue-table insertion behaviour -/

theorem dictInsert_of_not_key {t : Table} {k v : String}
    (h : ∀ e ∈ t, e.1 ≠ k) : dictInsert t k v = t ++ [(k, v)] := by
  have : t.any (fun e => e.1 = k) = false := by
    simp only [List.any_eq_false]
    intro e he
    simpa using h e he
  simp [dictInsert, this]

theorem dictInsert_same_value {t : Table} {k v : String}
    (hk : t.any (fun e => e.1 = k) = true)
    (h : ∀ e ∈ t, e.1 = k → e.2 = v) : dictInsert t k v = t := by
  simp only [dictInsert, hk, if_pos]
  have : ∀ e ∈ t, (if e.1 = k then (k, v) else e) = e := by
    intro e he
    by_cases hek : e.1 = k
    · simp [hek, ← h e he hek, Prod.ext_iff]
    · simp [hek]
  calc t.map (fun e => if e.1 = k then (k, v) else e)
      = t.map id := List.map_congr_left this
    _ = t := List.map_id t

/-- The container name that `generate_filename` looks up and, on a miss,
inserts (`_get_container(metadata) or "unknown"`). -/
def effContainer (m : Meta) : String :=
  if get_container m = "" then "unknown" else get_container m

theorem generate_filename_miss_disk {mem : Table} (disk : Table) {m : Meta}
    (h : mem.find? (fun e => venueMatches (effContainer m) e.1) = none) :
    (generate_filename mem disk m).disk = dictInsert disk (effContainer m) "Unkonwn" ∧
    (generate_filename mem disk m).didInsert = true := by
  simp only [generate_filename, effContainer] at *
  rw [h]
  exact ⟨rfl, rfl⟩

/-- The metadata record used in the C3 counterexample. -/
def c3Meta : Meta :=
  ⟨["A"], some "journal-article", .scalar "Some Title", .scalar "SomeConf",
    some [[some 2021]], none, none, none⟩

/-- C3 counterexample: with the startup snapshot `mem = []`, the first
synthesis call inserts the unseen container into the table file, but a
second synthesis call with the same container name does not find it via the
lookup (which consults the snapshot) and calls `insert_entry` again — the
claim's "does not trigger another insertion" fails on the code. -/
theorem C3_counterexample :
    (generate_filename [] [] c3Meta).didInsert = true ∧
    (generate_filename [] [] c3Meta).disk = [("SomeConf", "Unkonwn")] ∧
    (generate_filename [] (generate_filename [] [] c3Meta).disk c3Meta).didInsert = true := by
  decide

/-- C3 amended: when the container name matches no entry of the loaded
snapshot (`mem`, equal to the table file at startup), synthesis appends the
name to the table file, which then holds it exactly once; a subsequent
synthesis call with the same metadata does trigger another insertion
(`didInsert = true`, a second disk write), but that insertion is idempotent
and leaves the table file unchanged. -/
theorem C3_unseen_venue_insertion (mem : Table) (m : Meta)
    (h : mem.find? (fun e => venueMatches (effContainer m) e.1) = none) :
    (generate_filename mem mem m).disk = mem ++ [(effContainer m, "Unkonwn")] ∧
    ((generate_filename mem mem m).disk.filter
        (fun e => e.1 = effContainer m)).length = 1 ∧
    (generate_filename mem (generate_filename mem mem m).disk m).disk =
      (generate_filename mem mem m).disk ∧
    (generate_filename mem (generate_filename mem mem m).disk m).didInsert = true := by
  have hnk : ∀ e ∈ mem, e.1 ≠ effContainer m := by
    intro e he heq
    have hfind := List.find?_eq_none.mp h _ he
    simp only [heq] at hfind
    exact hfind (venueMatches_refl _)
  obtain ⟨hd1, _⟩ := generate_filename_miss_disk mem h
  have hins : (generate_filename mem mem m).disk = mem ++ [(effContainer m, "Unkonwn")] := by
    rw [hd1, dictInsert_of_not_key hnk]
  refine ⟨hins, ?_, ?_, ?_⟩
  · rw [hins, List.filter_append]
    have h1 : mem.filter (fun e => e.1 = effContainer m) = [] := by
      simp only [List.filter_eq_nil_iff]
      intro e he
      simpa using hnk e he
    simp [h1]
  · obtain ⟨hd2, _⟩ := generate_filename_miss_disk (generate_filename mem mem m).disk h
    rw [hd2, hins]
    apply dictInsert_same_value
    · simp
    · intro e he hek
      rcases List.mem_append.mp he with hmem | hone
      · exact absurd hek (hnk e hmem)
      · simp only [List.mem_singleton] at hone
        simp [hone]
  · exact (generate_filename_miss_disk (generate_filename mem mem m).disk h).2

theorem C3_witness :
    ([] : Table).find? (fun e => venueMatches (effContainer c3Meta) e.1) = none ∧
    (generate_filename [] [] c3Meta).disk = [] ++ [(effContainer c3Meta, "Unkonwn")] :=
  ⟨by decide, (C3_unseen_venue_insertion [] c3Meta (by decide)).1⟩

/-! ## C7: pre-existing rename target -/

/-- C7: when the synthesized target path already exists in the filesystem,
the per-document step leaves the filesystem unchanged (the original file
stays at its path), raises nothing past the per-document boundary, and the
batch continues with the next document on the same filesystem. -/
theorem C7_existing_target_skips (tryF : String → Option Meta) (mem : Table)
    (d : DocInput) (ds : List DocInput) (disk disk' : Table) (fs : List String)
    (f : String)
    (hfile : fs.contains d.path = true)
    (hname : doc_filename tryF mem disk d.text = (disk', .name f))
    (hexists : fs.contains (joinModel (dirnameModel d.path) (f ++ ".pdf")) = true) :
    docStep tryF mem d disk fs = ⟨disk', fs, none⟩ ∧
    runBatch tryF mem (d :: ds) disk fs = runBatch tryF mem ds disk' fs := by
  have hstep : docStep tryF mem d disk fs = ⟨disk', fs, none⟩ := by
    simp only [docStep, hfile, if_pos, hname, hexists, if_true]
  exact ⟨hstep, by simp only [runBatch, hstep]⟩

theorem C7_witness :
    (let fs := ["dir/a.pdf", "dir/[year]-[Conference]++A_Study_of_Widgets.pdf"]
     let d : DocInput := ⟨"dir/a.pdf", "A Study of Widgets"⟩
     docStep (fun _ => none) [] d [] fs = ⟨[], fs, none⟩ ∧
     runBatch (fun _ => none) [] [d] [] fs = runBatch (fun _ => none) [] [] [] fs) := by
  refine C7_existing_target_skips (fun _ => none) [] _ [] [] []
    _ "[year]-[Conference]++A_Study_of_Widgets" (by decide) ?_ (by decide)
  decide

/-! ## C1: behaviour when no identifier candidate resolves -/

/-- Registry oracle for the C1 counterexample: only the identifier that the
bibliographic search would return resolves. -/
def c1TryF : String → Option Meta := fun s =>
  if s = "10.9999/hit" then
    some ⟨["A"], some "journal-article", .scalar "Hit Paper", .scalar "Hit Conf",
      some [[some 2020]], none, none, none⟩
  else none

/-- Bibliographic-search oracle for the C1 counterexample: every query
returns one ranked hit, which resolves with an author. -/
def c1Search : String → List String := fun _ => ["10.9999/hit"]

/-- First-page text for the C1 counterexample: a title line and a DOI that
does not resolve. -/
def c1Text : String := "A Study of Widgets\nsee 10.1000/xyz now."

/-- C1 counterexample: on a document whose only DOI candidate does not
resolve, while a bibliographic search on the extracted title would return a
hit that resolves with an author, the source's per-document filename
decision differs from the spec's title-fallback pipeline: the source goes
straight to the placeholder filename and never issues the search. -/
theorem C1_counterexample :
    doc_filename c1TryF [] [] c1Text ≠
      doc_filename_spec c1Search c1TryF [] [] c1Text := by
  decide

/-- C1 amended: when no extracted identifier candidate resolves to
metadata, the document is emitted directly with the placeholder
year/venue and the best-effort title (or the per-document exception path
when no title was extracted); no title-based registry resolution is
attempted — the source contains no bibliographic-search call. -/
theorem C1_no_resolution_placeholder (tryF : String → Option Meta)
    (mem disk : Table) (text : String)
    (h : ∀ c ∈ extract_all_dois_from_text text, fetch_doi_metadata tryF c = none) :
    doc_filename tryF mem disk text =
      (disk,
        match extract_paper_title text with
        | some t => .name ("[year]-[Conference]++" ++ smart_filename_transform t)
        | none => .raise) := by
  have hstrict : (extract_all_dois_from_text text).find? (strictOk tryF) = none := by
    rw [List.find?_eq_none]
    intro x hx
    simp [strictOk, h x hx]
  have hrelax : (extract_all_dois_from_text text).find? (relaxedOk tryF) = none := by
    rw [List.find?_eq_none]
    intro x hx
    simp [relaxedOk, h x hx]
  simp only [doc_filename, extract_best_doi, hstrict, hrelax]
  cases extract_paper_title text <;> rfl

theorem C1_witness :
    (∀ c ∈ extract_all_dois_from_text "A Study of Widgets\nsee 10.1000/xyz now.",
        fetch_doi_metadata (fun _ => none) c = none) ∧
    doc_filename (fun _ => none) [] [] "A Study of Widgets\nsee 10.1000/xyz now." =
      ([], .name ("[year]-[Conference]++" ++ smart_filename_transform "A Study of Widgets")) :=
  ⟨by decide, by
    have h := C1_no_resolution_placeholder (fun _ => none) [] []
      "A Study of Widgets\nsee 10.1000/xyz now." (by decide)
    simpa using h⟩

/-! ## Lemmas about the contamination filter and the shape check -/

theorem toLower_eq_self_of_lt {c : Char} (h : c.toNat < 65) : c.toLower = c := by
  simp only [Char.toLower]
  rw [if_neg]
  omega

theorem startsWithCI_head {q : Char} {qs : List Char} {x : Char} {t : List Char}
    (h : startsWithCI (q :: qs) (x :: t) = true) : x.toLower = q := by
  simp only [startsWithCI, List.length_cons, List.take_succ_cons, List.map_cons,
    decide_eq_true_eq, List.cons.injEq] at h
  exact h.1

theorem isDigit_toNat {c : Char} (h : c.isDigit = true) :
    48 ≤ c.toNat ∧ c.toNat ≤ 57 := by
  simp only [Char.isDigit, Bool.and_eq_true, decide_eq_true_eq] at h
  exact ⟨h.1, h.2⟩

theorem safe_toNat_lt {x : Char} (hx : x.isDigit = true ∨ x = '.' ∨ x = '/') :
    x.toNat < 65 := by
  rcases hx with hd | he | he
  · have := isDigit_toNat hd
    omega
  · subst he; decide
  · subst he; decide

theorem startsWithCI_marker_false (q : Char) (qs : List Char) {x : Char}
    (t : List Char) (hq : 97 ≤ q.toNat)
    (hx : x.isDigit = true ∨ x = '.' ∨ x = '/') :
    startsWithCI (q :: qs) (x :: t) = false := by
  cases hs : startsWithCI (q :: qs) (x :: t) with
  | false => rfl
  | true =>
      have h1 := startsWithCI_head hs
      rw [toLower_eq_self_of_lt (safe_toNat_lt hx)] at h1
      subst h1
      have := safe_toNat_lt hx
      omega

/-- No contamination marker matches at a position holding a digit, a dot or
a slash. -/
theorem delMatch_cons_false {x : Char} {t : List Char}
    (hx : x.isDigit = true ∨ x = '.' ∨ x = '/') :
    delMatch (x :: t) = false := by
  have hf := startsWithCI_marker_false 'f' ['i', 'l', 'e', 's'] t (by decide) hx
  have hp := startsWithCI_marker_false 'p' ['d', 'f'] t (by decide) hx
  have ha := startsWithCI_marker_false 'a'
    ['b', 's', 't', 'r', 'a', 'c', 't'] t (by decide) hx
  have hu := startsWithCI_marker_false 'f' ['u', 'l', 'l'] t (by decide) hx
  have hd := startsWithCI_marker_false 'd'
    ['o', 'w', 'n', 'l', 'o', 'a', 'd'] t (by decide) hx
  simp [delMatch, hf, hp, ha, hu, hd]

/-- The contamination cut passes unchanged through a span of digits, dots
and slashes. -/
theorem contamCut_append_clean {p r : List Char}
    (hp : ∀ x ∈ p, x.isDigit = true ∨ x = '.' ∨ x = '/') :
    contamCut (p ++ r) = p ++ contamCut r := by
  induction p with
  | nil => rfl
  | cons x p ih =>
      have hx := hp x (List.mem_cons_self x p)
      have hrest : ∀ y ∈ p, y.isDigit = true ∨ y = '.' ∨ y = '/' :=
        fun y hy => hp y (List.mem_cons_of_mem x hy)
      simp only [List.cons_append, contamCut, delMatch_cons_false hx,
        Bool.false_eq_true, if_false, List.append_eq, ih hrest]

theorem delMatch_nil : delMatch [] = false := by decide

/-- At a position where the contamination pattern matches, everything is
deleted (up to a surviving final newline). -/
theorem contamCut_of_delMatch {r : List Char} (h : delMatch r = true) :
    contamCut r = if r.getLast? = some '\n' then ['\n'] else [] := by
  cases r with
  | nil => rw [delMatch_nil] at h; exact absurd h (by simp)
  | cons c t => simp only [contamCut, h, if_true]

/-- Stripping around a span whose ends do not satisfy the strip predicate,
followed by a fully-strippable tail, returns the span. -/
theorem stripChars_clean_append (p : Char → Bool) (l t : List Char)
    (h1 : l.head?.all (fun c => !(p c)) = true)
    (h2 : l.getLast?.all (fun c => !(p c)) = true)
    (ht : ∀ x ∈ t, p x = true) :
    stripChars p (l ++ t) = l := by
  cases l with
  | nil =>
      have hall : t.dropWhile p = [] := by
        rw [List.dropWhile_eq_nil_iff]
        exact ht
      simp [stripChars, hall]
  | cons a l' =>
      have hpa : p a = false := by
        simpa using h1
      have hdrop : ((a :: l') ++ t).dropWhile p = (a :: l') ++ t := by
        simp [List.dropWhile_cons, hpa]
      have hrev : t.reverse.dropWhile p = [] := by
        rw [List.dropWhile_eq_nil_iff]
        intro x hx
        exact ht x (List.mem_reverse.mp hx)
      have hlast : ∀ x, (a :: l').reverse.head? = some x → p x = false := by
        intro x hxe
        rw [List.head?_reverse] at hxe
        have := h2
        rw [hxe] at this
        simpa using this
      have hdrop2 : (a :: l').reverse.dropWhile p = (a :: l').reverse := by
        cases hr : (a :: l').reverse with
        | nil => rfl
        | cons b bs =>
            have hb : p b = false := hlast b (by rw [hr]; rfl)
            simp [List.dropWhile_cons, hb]
      rw [stripChars, hdrop, List.reverse_append, List.dropWhile_append, hrev]
      have hif : (if ([] : List Char).isEmpty = true
          then List.dropWhile p (a :: l').reverse
          else [] ++ (a :: l').reverse) = List.dropWhile p (a :: l').reverse :=
        if_pos rfl
      rw [hif, hdrop2, List.reverse_reverse]

theorem digit_ne_nl {c : Char} (h : c.isDigit = true) : (c = '\n') = False := by
  simp only [eq_iff_iff, iff_false]
  intro he
  subst he
  exact absurd h (by decide)

theorem digit_ne_dot {c : Char} (h : c.isDigit = true) : (c = '.') = False := by
  simp only [eq_iff_iff, iff_false]
  intro he
  subst he
  exact absurd h (by decide)

theorem takeWhile_digits {ds : List Char} (h : ∀ x ∈ ds, x.isDigit = true)
    (p : List Char) :
    (ds ++ '/' :: p).takeWhile Char.isDigit = ds := by
  induction ds with
  | nil => simp [List.takeWhile_cons]
  | cons x ds ih =>
      have hx := h x (List.mem_cons_self x ds)
      simp only [List.cons_append, List.takeWhile_cons, hx, if_true]
      rw [ih (fun y hy => h y (List.mem_cons_of_mem x hy))]

/-- On `10.<digits>/<digits>`, the shape regex holds exactly when the part
after the slash has at least two characters. -/
theorem matchShape_digits {ds p : List Char} (hds1 : ds ≠ [])
    (hds2 : ∀ x ∈ ds, x.isDigit = true) (hp : ∀ x ∈ p, x.isDigit = true) :
    matchShape ('1' :: '0' :: '.' :: (ds ++ '/' :: p)) = decide (2 ≤ p.length) := by
  have htake := takeWhile_digits hds2 p
  have hdrop : (ds ++ '/' :: p).drop ((ds ++ '/' :: p).takeWhile Char.isDigit).length
      = '/' :: p := by
    rw [htake, List.drop_left]
  simp only [matchShape, htake, hdrop]
  have hne : ds.isEmpty = false := by
    cases ds with
    | nil => exact absurd rfl hds1
    | cons a l => rfl
  rw [hne]
  by_cases hlen : 2 ≤ p.length
  · have hdl : p.dropLast.all (fun c => !(c = '\n')) = true := by
      rw [List.all_eq_true]
      intro x hx
      have := hp x (List.dropLast_subset p hx)
      simp [digit_ne_nl this]
    have hgl : p.getLast?.all (fun c => !(c = '.')) = true := by
      cases hg : p.getLast? with
      | none => rfl
      | some x =>
          have hx := hp x (List.mem_of_getLast?_eq_some hg)
          simp [Option.all, digit_ne_dot hx]
    simp [hlen, hdl, hgl]
  · have h3 : ¬(3 ≤ p.length) := by omega
    simp [hlen, h3]

theorem isPySpace_toNat {x : Char} (h : isPySpace x = true) : x.toNat ≤ 32 := by
  simp only [isPySpace, Bool.or_eq_true, decide_eq_true_eq] at h
  rcases h with ((((he | he) | he) | he) | he) | he <;> subst he <;> decide

theorem clean_not_space {x : Char} (hx : x.isDigit = true ∨ x = '.' ∨ x = '/') :
    isPySpace x = false := by
  cases hps : isPySpace x with
  | false => rfl
  | true =>
      have h32 := isPySpace_toNat hps
      rcases hx with h | h | h
      · have := isDigit_toNat h
        omega
      · subst h; exact absurd h32 (by decide)
      · subst h; exact absurd h32 (by decide)

/-- The cleaning stage on a candidate of the form
`10.<digits>/<digits><marker-suffix>`: everything from the contamination
marker on is deleted, and the candidate is kept (truncated) exactly when at
least two characters remain after the slash. -/
theorem clean_marker_cut (ds p r : List Char) (hds1 : ds ≠ [])
    (hds2 : ∀ x ∈ ds, x.isDigit = true) (hp : ∀ x ∈ p, x.isDigit = true)
    (hr : delMatch r = true) :
    clean_doi_list [⟨'1' :: '0' :: '.' :: (ds ++ '/' :: p) ++ r⟩] =
      if 2 ≤ p.length then [⟨'1' :: '0' :: '.' :: (ds ++ '/' :: p)⟩] else [] := by
  have hL : ∀ x ∈ '1' :: '0' :: '.' :: (ds ++ '/' :: p),
      x.isDigit = true ∨ x = '.' ∨ x = '/' := by
    intro x hx
    simp only [List.mem_cons, List.mem_append] at hx
    rcases hx with he | he | he | hd | he | hd
    · subst he; exact Or.inl (by decide)
    · subst he; exact Or.inl (by decide)
    · subst he; exact Or.inr (Or.inl rfl)
    · exact Or.inl (hds2 _ hd)
    · subst he; exact Or.inr (Or.inr rfl)
    · exact Or.inl (hp _ hd)
  have hcut : contamCut (('1' :: '0' :: '.' :: (ds ++ '/' :: p)) ++ r) =
      ('1' :: '0' :: '.' :: (ds ++ '/' :: p)) ++
        (if r.getLast? = some '\n' then ['\n'] else []) := by
    rw [contamCut_append_clean hL, contamCut_of_delMatch hr]
  obtain ⟨y, hy⟩ : ∃ y, ('/' :: p).getLast? = some y := by
    cases hpp : p with
    | nil => exact ⟨'/', rfl⟩
    | cons q ps =>
        cases hq : (q :: ps).getLast? with
        | none => exact absurd hq (by simp [List.getLast?_eq_none_iff])
        | some z => exact ⟨z, by rw [List.getLast?_cons_cons, hq]⟩
  have hymem : y = '/' ∨ y ∈ p := by
    have := List.mem_of_getLast?_eq_some hy
    simpa using this
  have hyprop : y.isDigit = true ∨ y = '.' ∨ y = '/' := by
    rcases hymem with he | hm
    · exact Or.inr (Or.inr he)
    · exact Or.inl (hp _ hm)
  have hyne : (y = '.') = False := by
    rcases hymem with he | hm
    · subst he; simp
    · exact digit_ne_dot (hp _ hm)
  have hglast : ('1' :: '0' :: '.' :: (ds ++ '/' :: p)).getLast? = some y := by
    show ((['1', '0', '.'] ++ ds) ++ '/' :: p).getLast? = some y
    rw [List.getLast?_append, hy]
    rfl
  have hstrip : pyStrip (('1' :: '0' :: '.' :: (ds ++ '/' :: p)) ++
      (if r.getLast? = some '\n' then ['\n'] else [])) =
      '1' :: '0' :: '.' :: (ds ++ '/' :: p) := by
    apply stripChars_clean_append
    · rfl
    · rw [hglast]
      simp [Option.all, clean_not_space hyprop]
    · intro x hx
      by_cases hnb : r.getLast? = some '\n'
      · rw [if_pos hnb] at hx
        simp only [List.mem_singleton] at hx
        subst hx
        decide
      · rw [if_neg hnb] at hx
        exact absurd hx (List.not_mem_nil x)
  have hshape := matchShape_digits hds1 hds2 hp
  have hdot : (('1' :: '0' :: '.' :: (ds ++ '/' :: p)).getLast? = some '.') = False := by
    rw [hglast]
    simp only [Option.some.injEq, eq_iff_iff, iff_false]
    intro he
    rw [he] at hyne
    simp at hyne
  simp only [clean_doi_list, List.filterMap_cons, List.filterMap_nil]
  have hne : ((⟨('1' :: '0' :: '.' :: (ds ++ '/' :: p)) ++ r⟩ : String) = "") = False := by
    simp only [eq_iff_iff, iff_false]
    intro he
    have : ('1' :: '0' :: '.' :: (ds ++ '/' :: p)) ++ r = "".data := congrArg String.data he
    simp at this
  simp only [hne, if_false, hcut, hstrip, hshape, hdot]
  by_cases hlen : 2 ≤ p.length
  · simp [hlen]
  · simp [hlen]

/-- C2 counterexample: a well-formed DOI glued directly to the prose word
"Received" (no boundary character in between) is extracted with the prose
attached: the candidate list is exactly the glued string, and the bare DOI
is not among the candidates.  Moreover the deletion point of the
contamination filter is the first marker occurrence anywhere, not the
DOI/prose boundary: prose `helloPDFworld` is cut after `hello`, so the
candidate neither equals the DOI alone nor loses all of the prose. -/
theorem C2_counterexample :
    extract_all_dois_from_text "see 10.1145/123Received today" =
      ["10.1145/123Received"] ∧
    "10.1145/123" ∉ extract_all_dois_from_text "see 10.1145/123Received today" ∧
    clean_doi_list ["10.1145/123helloPDFworld"] = ["10.1145/123hello"] := by
  decide

/-- The position of the first match of the contamination pattern (length of
the text when there is none): the substitution deletes from here on. -/
def firstDelIdx : List Char → Nat
  | [] => 0
  | c :: t => if delMatch (c :: t) then 0 else firstDelIdx t + 1

/-- On newline-free text, the contamination cut keeps exactly the prefix
before the first pattern match. -/
theorem contamCut_eq_take {l : List Char} (hnl : '\n' ∉ l) :
    contamCut l = l.take (firstDelIdx l) := by
  induction l with
  | nil => rfl
  | cons c t ih =>
      rw [contamCut, firstDelIdx]
      by_cases hdm : delMatch (c :: t) = true
      · have hg : ¬((c :: t).getLast? = some '\n') := by
          intro hg
          exact hnl (List.mem_of_getLast?_eq_some hg)
        simp only [hdm, if_true, if_neg hg, List.take_zero]
      · rw [if_neg hdm, if_neg hdm, List.take_succ_cons,
          ih (fun hx => hnl (List.mem_cons_of_mem c hx))]

/-- When the pattern matches somewhere, it matches at `firstDelIdx`. -/
theorem firstDelIdx_match {l : List Char}
    (h : ∃ i, delMatch (l.drop i) = true) :
    delMatch (l.drop (firstDelIdx l)) = true := by
  induction l with
  | nil =>
      obtain ⟨i, hi⟩ := h
      rw [List.drop_nil] at hi
      rw [delMatch_nil] at hi
      exact absurd hi (by simp)
  | cons c t ih =>
      rw [firstDelIdx]
      by_cases hdm : delMatch (c :: t) = true
      · rw [if_pos hdm, List.drop_zero]
        exact hdm
      · rw [if_neg hdm, List.drop_succ_cons]
        apply ih
        obtain ⟨i, hi⟩ := h
        cases i with
        | zero =>
            rw [List.drop_zero] at hi
            exact absurd hi hdm
        | succ j => exact ⟨j, by rw [List.drop_succ_cons] at hi; exact hi⟩

/-- No position before `firstDelIdx` matches the pattern. -/
theorem firstDelIdx_min {l : List Char} {i : Nat} (h : i < firstDelIdx l) :
    delMatch (l.drop i) = false := by
  induction l generalizing i with
  | nil => rw [firstDelIdx] at h; omega
  | cons c t ih =>
      rw [firstDelIdx] at h
      by_cases hdm : delMatch (c :: t) = true
      · rw [if_pos hdm] at h; omega
      · rw [if_neg hdm] at h
        cases i with
        | zero =>
            rw [List.drop_zero]
            simp only [Bool.not_eq_true] at hdm
            exact hdm
        | succ j =>
            rw [List.drop_succ_cons]
            exact ih (by omega)

/-- The contamination cut passes unchanged through a span at whose
positions the pattern does not match. -/
theorem contamCut_append_nomatch {p r : List Char}
    (hp : ∀ i < p.length, delMatch ((p ++ r).drop i) = false) :
    contamCut (p ++ r) = p ++ contamCut r := by
  induction p with
  | nil => rfl
  | cons x p ih =>
      have hrest : ∀ i < p.length, delMatch ((p ++ r).drop i) = false := by
        intro i hi
        have h1 := hp (i + 1) (by simp only [List.length_cons]; omega)
        rw [show (x :: p ++ r).drop (i + 1) = (p ++ r).drop i from by
          rw [List.cons_append, List.drop_succ_cons]] at h1
        exact h1
      have h0 : delMatch (x :: (p ++ r)) = false := by
        have h1 := hp 0 (by simp)
        rw [List.drop_zero, List.cons_append] at h1
        exact h1
      rw [List.cons_append, contamCut, if_neg (by rw [h0]; simp), ih hrest]
      rfl

theorem isBodyChar_not_space {x : Char} (h : isBodyChar x = true) :
    isPySpace x = false := by
  cases hs : isPySpace x with
  | false => rfl
  | true =>
      simp only [isPySpace, Bool.or_eq_true, decide_eq_true_eq] at hs
      rcases hs with ((((he | he) | he) | he) | he) | he <;> subst he <;>
        exact absurd h (by decide)

theorem isBodyChar_ne_nl {x : Char} (h : isBodyChar x = true) : x ≠ '\n' := by
  intro he
  subst he
  exact absurd h (by decide)

/-- C10: the contamination filter deletes from the first marker occurrence
anywhere in the (newline-free) portion after `10.<digits>/`, not only a
trailing suffix: for every suffix `rest` containing a marker match at some
position, the cut truncates the candidate exactly at the first matching
position of `rest` (a genuine match, with no match before it); and when
`rest` itself begins with a marker match, the candidate is not returned by
`clean_doi_list` at all. -/
theorem C10_marker_anywhere (ds rest : List Char) (hds1 : ds ≠ [])
    (hds2 : ∀ x ∈ ds, x.isDigit = true) (hnl : '\n' ∉ rest)
    (hocc : ∃ i, delMatch (rest.drop i) = true) :
    contamCut ('1' :: '0' :: '.' :: (ds ++ '/' :: rest)) =
      '1' :: '0' :: '.' :: (ds ++ '/' :: rest.take (firstDelIdx rest)) ∧
    delMatch (rest.drop (firstDelIdx rest)) = true ∧
    (∀ i < firstDelIdx rest, delMatch (rest.drop i) = false) ∧
    (delMatch rest = true →
      clean_doi_list [⟨('1' :: '0' :: '.' :: (ds ++ '/' :: rest) : List Char)⟩] = []) := by
  refine ⟨?_, firstDelIdx_match hocc, fun i hi => firstDelIdx_min hi, ?_⟩
  · have hL : ∀ x ∈ ('1' :: '0' :: '.' :: (ds ++ ['/'])),
        x.isDigit = true ∨ x = '.' ∨ x = '/' := by
      intro x hx
      simp only [List.mem_cons, List.mem_append, List.mem_singleton] at hx
      rcases hx with he | he | he | hd | he | he
      · subst he; exact Or.inl (by decide)
      · subst he; exact Or.inl (by decide)
      · subst he; exact Or.inr (Or.inl rfl)
      · exact Or.inl (hds2 _ hd)
      · subst he; exact Or.inr (Or.inr rfl)
      · exact absurd he (List.not_mem_nil x)
    have hassoc : '1' :: '0' :: '.' :: (ds ++ '/' :: rest) =
        ('1' :: '0' :: '.' :: (ds ++ ['/'])) ++ rest := by simp
    rw [hassoc, contamCut_append_clean hL, contamCut_eq_take hnl]
    simp
  · intro h
    have hc := clean_marker_cut ds [] rest hds1 hds2 (by simp) h
    simpa using hc

theorem C10_witness :
    ('\n' ∉ "3368089.3417065Files".data ∧
      delMatch ("3368089.3417065Files".data.drop 15) = true ∧
      delMatch "pdf2021".data = true) ∧
    contamCut "10.1145/3368089.3417065Files".data = "10.1145/3368089.3417065".data ∧
    clean_doi_list ["10.1234/pdf2021"] = [] := by
  refine ⟨⟨by decide, by decide, by decide⟩, ?_, ?_⟩
  · have h := (C10_marker_anywhere "1145".data "3368089.3417065Files".data
      (by decide) (by decide) (by decide) ⟨15, by decide⟩).1
    have he : "10.1145/3368089.3417065Files".data =
        '1' :: '0' :: '.' :: ("1145".data ++ '/' :: "3368089.3417065Files".data) := by
      decide
    rw [he, h]
    decide
  · have h := (C10_marker_anywhere "1234".data "pdf2021".data
      (by decide) (by decide) (by decide) ⟨0, by decide⟩).2.2.2 (by decide)
    have he : (⟨('1' :: '0' :: '.' :: ("1234".data ++ '/' :: "pdf2021".data) :
        List Char)⟩ : String) = "10.1234/pdf2021" := by decide
    rw [he] at h
    exact h

/-! ## C4: the shape filter of `clean_doi_list` -/

theorem drop_length_takeWhile (p : Char → Bool) (l : List Char) :
    l.drop (l.takeWhile p).length = l.dropWhile p := by
  have h := List.takeWhile_append_dropWhile p l
  nth_rewrite 2 [← h]
  rw [List.drop_left]

theorem mem_contamCut {x : Char} {l : List Char} (h : x ∈ contamCut l) : x ∈ l := by
  induction l with
  | nil => exact absurd h (List.not_mem_nil x)
  | cons c t ih =>
      rw [contamCut] at h
      by_cases hdm : delMatch (c :: t) = true
      · rw [if_pos hdm] at h
        by_cases hnl : (c :: t).getLast? = some '\n'
        · rw [if_pos hnl] at h
          simp only [List.mem_singleton] at h
          subst h
          exact List.mem_of_getLast?_eq_some hnl
        · rw [if_neg hnl] at h
          exact absurd h (List.not_mem_nil x)
      · rw [if_neg hdm] at h
        rcases List.mem_cons.mp h with he | hm
        · exact he ▸ List.mem_cons_self c t
        · exact List.mem_cons_of_mem c (ih hm)

theorem mem_stripChars {p : Char → Bool} {x : Char} {l : List Char}
    (h : x ∈ stripChars p l) : x ∈ l := by
  have h1 : x ∈ (l.dropWhile p).reverse.dropWhile p := by
    simpa [stripChars] using h
  have h2 := (@List.dropWhile_sublist Char ((l.dropWhile p).reverse) p).mem h1
  have h3 : x ∈ l.dropWhile p := List.mem_reverse.mp h2
  exact (List.dropWhile_sublist p).mem h3

theorem getLast?_shape (ds r : List Char) (hr : r ≠ []) :
    ('1' :: '0' :: '.' :: (ds ++ '/' :: r)).getLast? = r.getLast? := by
  cases r with
  | nil => exact absurd rfl hr
  | cons q ps =>
      obtain ⟨z, hz⟩ : ∃ z, (q :: ps).getLast? = some z := by
        cases hq : (q :: ps).getLast? with
        | none => exact absurd hq (by simp [List.getLast?_eq_none_iff])
        | some z => exact ⟨z, rfl⟩
      show ((['1', '0', '.'] ++ ds) ++ '/' :: q :: ps).getLast? = _
      rw [List.getLast?_append, List.getLast?_cons_cons, hz]
      rfl

/-- The shape regex `^10\.\d+/.+[^.]$` on newline-free candidates holds
exactly for `10.<digits>/<suffix>` with a suffix of at least two characters
not ending in a dot. -/
theorem matchShape_iff_decomp {l : List Char} (hl : '\n' ∉ l) :
    matchShape l = true ↔
      ∃ ds r, l = '1' :: '0' :: '.' :: (ds ++ '/' :: r) ∧ ds ≠ [] ∧
        (∀ x ∈ ds, x.isDigit = true) ∧ 2 ≤ r.length ∧ r.getLast? ≠ some '.' := by
  constructor
  · intro h
    unfold matchShape at h
    split at h
    rotate_left
    · exact absurd h (by simp)
    rename_i rest
    split at h
    rotate_left
    · exact absurd h (by simp)
    rename_i rr hrr
    · 
        simp only [Bool.and_eq_true, Bool.or_eq_true, Bool.not_eq_true'] at h
        obtain ⟨hds, hAB⟩ := h
        have hrest : rest = rest.takeWhile Char.isDigit ++ '/' :: rr := by
          conv_lhs => rw [← List.takeWhile_append_dropWhile Char.isDigit rest]
          rw [← drop_length_takeWhile Char.isDigit rest, hrr]
        have hrrsub : ∀ x ∈ rr, x ∈ '1' :: '0' :: '.' :: rest := by
          intro x hx
          rw [hrest]
          refine List.mem_cons_of_mem _ (List.mem_cons_of_mem _ (List.mem_cons_of_mem _ ?_))
          exact List.mem_append_right _ (List.mem_cons_of_mem _ hx)
        have hB : ¬(rr.getLast? = some '\n') := by
          intro hg
          exact hl (hrrsub _ (List.mem_of_getLast?_eq_some hg))
        have hA : (2 ≤ rr.length ∧ rr.getLast?.all (fun c => !(c = '.')) = true) := by
          rcases hAB with hA | hB'
          · simp only [Bool.and_eq_true, decide_eq_true_eq] at hA
            exact ⟨hA.1.1, hA.2⟩
          · simp only [Bool.and_eq_true, decide_eq_true_eq] at hB'
            exact absurd hB'.1.1.2 hB
        refine ⟨rest.takeWhile Char.isDigit, rr, by conv_lhs => rw [hrest], ?_, ?_, hA.1, ?_⟩
        · simpa [List.isEmpty_iff] using hds
        · intro x hx
          exact List.mem_takeWhile_imp hx
        · intro hg
          rw [hg] at hA
          simpa using hA.2
  · rintro ⟨ds, r, rfl, hds1, hds2, hlen, hdot⟩
    have hrne : r ≠ [] := by
      intro he
      rw [he] at hlen
      simp at hlen
    have hrsub : ∀ x ∈ r, x ∈ '1' :: '0' :: '.' :: (ds ++ '/' :: r) := by
      intro x hx
      refine List.mem_cons_of_mem _ (List.mem_cons_of_mem _ (List.mem_cons_of_mem _ ?_))
      exact List.mem_append_right _ (List.mem_cons_of_mem _ hx)
    obtain ⟨z, hz⟩ : ∃ z, r.getLast? = some z := by
      cases hq : r.getLast? with
      | none => exact absurd (List.getLast?_eq_none_iff.mp hq) hrne
      | some z => exact ⟨z, rfl⟩
    have htake := takeWhile_digits hds2 r
    have hdrop : (ds ++ '/' :: r).drop ((ds ++ '/' :: r).takeWhile Char.isDigit).length
        = '/' :: r := by
      rw [htake, List.drop_left]
    unfold matchShape
    simp only [htake, hdrop]
    have hne : ds.isEmpty = false := by
      cases ds with
      | nil => exact absurd rfl hds1
      | cons a t => rfl
    rw [hne]
    have hdl : r.dropLast.all (fun c => !(c = '\n')) = true := by
      rw [List.all_eq_true]
      intro x hx
      have hxl := hrsub x (List.dropLast_subset r hx)
      simp only [Bool.not_eq_true', decide_eq_false_iff_not]
      intro he
      subst he
      exact hl hxl
    have hzd : (z = '.') = False := by
      simp only [eq_iff_iff, iff_false]
      intro he
      subst he
      exact hdot hz
    simp [hlen, hdl, hz, hzd]

/-- C4 counterexample: `10.1234/x` has the canonical shape
`10.<digits>/<nonempty>`, does not end in a dot, and is untouched by the
contamination filter and trimming — yet the post-filter rejects it (the
regex `.+[^.]$` demands at least two characters after the slash). -/
theorem C4_counterexample :
    ("10.1234/x".data = '1' :: '0' :: '.' :: ("1234".data ++ '/' :: "x".data) ∧
      "x".data ≠ [] ∧ "10.1234/x".data.getLast? ≠ some '.' ∧
      pyStrip (contamCut "10.1234/x".data) = "10.1234/x".data) ∧
    clean_doi_list ["10.1234/x"] = [] := by
  decide

/-- C4 amended: on newline-free candidates, the post-filter keeps exactly
the candidates that, after contamination stripping and whitespace trimming,
have the form `10.<digits>/<suffix>` where the suffix has at least two
characters and does not end in a dot; in particular `10.<digits>/` followed
by a single character is rejected. -/
theorem C4_kept_iff_shape (cands : List String)
    (hnl : ∀ d ∈ cands, '\n' ∉ d.data) (c : String) :
    c ∈ clean_doi_list cands ↔
      ∃ d ∈ cands, d ≠ "" ∧ c.data = pyStrip (contamCut d.data) ∧
        ∃ ds r, c.data = '1' :: '0' :: '.' :: (ds ++ '/' :: r) ∧ ds ≠ [] ∧
          (∀ x ∈ ds, x.isDigit = true) ∧ 2 ≤ r.length ∧ r.getLast? ≠ some '.' := by
  rw [clean_doi_list, List.mem_filterMap]
  constructor
  · rintro ⟨d, hd, hfd⟩
    by_cases hde : d = ""
    · rw [if_pos hde] at hfd
      exact absurd hfd (by simp)
    · rw [if_neg hde] at hfd
      set dc := pyStrip (contamCut d.data) with hdc
      by_cases hcond : (matchShape dc && !(dc.getLast? = some '.' : Bool)) = true
      · rw [if_pos hcond] at hfd
        have hceq : c = ⟨dc⟩ := by
          injection hfd with h
          exact h.symm
        have hcd : c.data = dc := by rw [hceq]
        have hdcnl : '\n' ∉ dc := by
          intro hx
          exact hnl d hd (mem_contamCut (mem_stripChars hx))
        simp only [Bool.and_eq_true] at hcond
        obtain ⟨ds, r, hsplit, h1, h2, h3, h4⟩ :=
          (matchShape_iff_decomp hdcnl).mp hcond.1
        exact ⟨d, hd, hde, hcd, ds, r, by rw [hcd, hsplit], h1, h2, h3, h4⟩
      · rw [if_neg hcond] at hfd
        exact absurd hfd (by simp)
  · rintro ⟨d, hd, hde, hcd, ds, r, hsplit, h1, h2, h3, h4⟩
    refine ⟨d, hd, ?_⟩
    rw [if_neg hde]
    set dc := pyStrip (contamCut d.data) with hdc
    have hdcnl : '\n' ∉ dc := by
      intro hx
      exact hnl d hd (mem_contamCut (mem_stripChars hx))
    have hshape : matchShape dc = true := by
      apply (matchShape_iff_decomp hdcnl).mpr
      exact ⟨ds, r, by rw [← hcd, hsplit], h1, h2, h3, h4⟩
    have hrne : r ≠ [] := by
      intro he
      rw [he] at h3
      simp at h3
    have hdot : (dc.getLast? = some '.') = False := by
      simp only [eq_iff_iff, iff_false]
      intro hg
      rw [← hcd, hsplit, getLast?_shape ds r hrne] at hg
      exact h4 hg
    rw [if_pos]
    · congr 1
      apply String.ext
      simp [hcd]
    · simp [hshape, hdot]

theorem C4_witness :
    "10.1234/ab" ∈ clean_doi_list ["10.1234/ab"] := by
  apply (C4_kept_iff_shape ["10.1234/ab"] (by decide) "10.1234/ab").mpr
  exact ⟨"10.1234/ab", by decide, by decide, by decide,
    "1234".data, "ab".data, by decide, by decide, by decide, by decide, by decide⟩

/-! ## C2: a well-formed DOI glued to marker-initial prose -/

/-- C2 amended: for a well-formed DOI (digit registrant, a suffix `b` of at
least two body characters not ending in a dot) glued directly to trailing
prose `r`, the cleaning stage keeps the DOI alone when the DOI's own suffix
contains no marker occurrence (`hnomark`) and the glued prose begins with
one (`hr`): the cut lands at the first marker occurrence anywhere in the
candidate, not at the DOI/prose boundary.  Prose with no marker occurrence
is retained in full, and a marker occurrence inside the prose leaves the
prose prefix attached (both shown by the counterexample). -/
theorem C2_marker_prose_stripped (ds b r : List Char) (hds1 : ds ≠ [])
    (hds2 : ∀ x ∈ ds, x.isDigit = true) (hbody : ∀ x ∈ b, isBodyChar x = true)
    (hnomark : ∀ i < b.length, delMatch ((b ++ r).drop i) = false)
    (hr : delMatch r = true) (hlen : 2 ≤ b.length)
    (hdot : b.getLast? ≠ some '.') :
    clean_doi_list [⟨('1' :: '0' :: '.' :: (ds ++ '/' :: b)) ++ r⟩] =
      [⟨'1' :: '0' :: '.' :: (ds ++ '/' :: b)⟩] := by
  have hbne : b ≠ [] := by
    intro he
    rw [he] at hlen
    simp at hlen
  have hL : ∀ x ∈ ('1' :: '0' :: '.' :: (ds ++ ['/'])),
      x.isDigit = true ∨ x = '.' ∨ x = '/' := by
    intro x hx
    simp only [List.mem_cons, List.mem_append, List.mem_singleton] at hx
    rcases hx with he | he | he | hd | he | he
    · subst he; exact Or.inl (by decide)
    · subst he; exact Or.inl (by decide)
    · subst he; exact Or.inr (Or.inl rfl)
    · exact Or.inl (hds2 _ hd)
    · subst he; exact Or.inr (Or.inr rfl)
    · exact absurd he (List.not_mem_nil x)
  have hcut : contamCut (('1' :: '0' :: '.' :: (ds ++ '/' :: b)) ++ r) =
      ('1' :: '0' :: '.' :: (ds ++ '/' :: b)) ++
        (if r.getLast? = some '\n' then ['\n'] else []) := by
    have hassoc : ('1' :: '0' :: '.' :: (ds ++ '/' :: b)) ++ r =
        ('1' :: '0' :: '.' :: (ds ++ ['/'])) ++ (b ++ r) := by simp
    rw [hassoc, contamCut_append_clean hL, contamCut_append_nomatch hnomark,
      contamCut_of_delMatch hr]
    simp
  obtain ⟨y, hy⟩ : ∃ y, b.getLast? = some y := by
    cases hq : b.getLast? with
    | none => exact absurd (List.getLast?_eq_none_iff.mp hq) hbne
    | some z => exact ⟨z, rfl⟩
  have hymem : y ∈ b := List.mem_of_getLast?_eq_some hy
  have hglast := getLast?_shape ds b hbne
  have hstrip : pyStrip (('1' :: '0' :: '.' :: (ds ++ '/' :: b)) ++
      (if r.getLast? = some '\n' then ['\n'] else [])) =
      '1' :: '0' :: '.' :: (ds ++ '/' :: b) := by
    apply stripChars_clean_append
    · rfl
    · rw [hglast, hy]
      simp [Option.all, isBodyChar_not_space (hbody _ hymem)]
    · intro x hx
      by_cases hnb : r.getLast? = some '\n'
      · rw [if_pos hnb] at hx
        simp only [List.mem_singleton] at hx
        subst hx
        decide
      · rw [if_neg hnb] at hx
        exact absurd hx (List.not_mem_nil x)
  have hnlL : '\n' ∉ '1' :: '0' :: '.' :: (ds ++ '/' :: b) := by
    intro hx
    simp only [List.mem_cons, List.mem_append] at hx
    rcases hx with he | he | he | hd | he | hd
    · exact absurd he (by decide)
    · exact absurd he (by decide)
    · exact absurd he (by decide)
    · exact absurd (hds2 _ hd) (by decide)
    · exact absurd he (by decide)
    · exact absurd rfl (isBodyChar_ne_nl (hbody _ hd)).symm
  have hshape : matchShape ('1' :: '0' :: '.' :: (ds ++ '/' :: b)) = true :=
    (matchShape_iff_decomp hnlL).mpr ⟨ds, b, rfl, hds1, hds2, hlen, hdot⟩
  have hdotL : (('1' :: '0' :: '.' :: (ds ++ '/' :: b)).getLast? = some '.') = False := by
    rw [hglast, hy]
    simp only [Option.some.injEq, eq_iff_iff, iff_false]
    intro he
    rw [he] at hy
    exact hdot hy
  simp only [clean_doi_list, List.filterMap_cons, List.filterMap_nil]
  have hne : ((⟨('1' :: '0' :: '.' :: (ds ++ '/' :: b)) ++ r⟩ : String) = "") = False := by
    simp only [eq_iff_iff, iff_false]
    intro he
    have hd : ('1' :: '0' :: '.' :: (ds ++ '/' :: b)) ++ r = "".data :=
      congrArg String.data he
    simp at hd
  simp only [hne, if_false, hcut, hstrip, hshape, hdotL]
  simp

theorem C2_witness :
    ((∀ x ∈ "3368089.3417065".data, isBodyChar x = true) ∧
      (∀ i < "3368089.3417065".data.length,
        delMatch (("3368089.3417065".data ++ "Files".data).drop i) = false) ∧
      delMatch "Files".data = true ∧ 2 ≤ "3368089.3417065".data.length ∧
      "3368089.3417065".data.getLast? ≠ some '.') ∧
    clean_doi_list ["10.1145/3368089.3417065Files"] = ["10.1145/3368089.3417065"] := by
  refine ⟨⟨by decide, by decide, by decide, by decide, by decide⟩, ?_⟩
  have h := C2_marker_prose_stripped "1145".data "3368089.3417065".data "Files".data
    (by decide) (by decide) (by decide) (by decide) (by decide) (by decide) (by decide)
  have he1 : (⟨('1' :: '0' :: '.' :: ("1145".data ++ '/' :: "3368089.3417065".data)) ++
      "Files".data⟩ : String) = "10.1145/3368089.3417065Files" := by decide
  have he2 : (⟨('1' :: '0' :: '.' :: ("1145".data ++ '/' :: "3368089.3417065".data) :
      List Char)⟩ : String) = "10.1145/3368089.3417065" := by decide
  rw [he1, he2] at h
  exact h

/-! ## C5: specificity resolution -/

theorem mem_insertByLen {x y : String} {l : List String} :
    x ∈ insertByLen y l ↔ x = y ∨ x ∈ l := by
  induction l with
  | nil => simp [insertByLen]
  | cons z t ih =>
      rw [insertByLen]
      by_cases h : z.length < y.length
      · simp [h, List.mem_cons]
      · simp only [h, if_false, List.mem_cons, ih]
        tauto

theorem mem_sortByLenDesc {x : String} {l : List String} :
    x ∈ sortByLenDesc l ↔ x ∈ l := by
  induction l with
  | nil => simp [sortByLenDesc]
  | cons z t ih =>
      rw [sortByLenDesc, List.foldr_cons]
      rw [show List.foldr insertByLen [] t = sortByLenDesc t from rfl]
      rw [mem_insertByLen, ih, List.mem_cons]

/-- C5 counterexample: with the chain `10.1000/ab`, `10.1000/ab.cd`,
`10.1000/ab.cd.ef` all surviving the cleaning stage, the pair
(`10.1000/ab`, `10.1000/ab.cd`) satisfies the claim's hypothesis, yet the
extraction result does not contain the longer member of the pair — it too
is discarded in favour of the still longer third candidate. -/
theorem C5_counterexample :
    prefer_specific_dois ["10.1000/ab", "10.1000/ab.cd", "10.1000/ab.cd.ef"] =
      ["10.1000/ab.cd.ef"] ∧
    extract_all_dois_from_text "10.1000/ab 10.1000/ab.cd 10.1000/ab.cd.ef" =
      ["10.1000/ab.cd.ef"] ∧
    "10.1000/ab".data <+: "10.1000/ab.cd".data ∧
    "10.1000/ab".length < "10.1000/ab.cd".length ∧
    isContChar ("10.1000/ab.cd".data.getD "10.1000/ab".length ' ') = true ∧
    "10.1000/ab.cd" ∉
      extract_all_dois_from_text "10.1000/ab 10.1000/ab.cd 10.1000/ab.cd.ef" := by
  decide

/-- C5 amended: a candidate survives specificity resolution exactly when no
other candidate extends it by a continuation character: the shorter member
of a continuation pair is always discarded, and the longer member is
retained unless it is itself so extended by a third candidate. -/
theorem C5_survivor_iff (cands : List String) (c : String) :
    c ∈ prefer_specific_dois cands ↔
      c ∈ cands ∧ ∀ d ∈ cands,
        ¬(c.data <+: d.data ∧ c.length < d.length ∧
          isContChar (d.data.getD c.length ' ') = true) := by
  rw [prefer_specific_dois, mem_sortByLenDesc, List.mem_dedup, List.mem_filter]
  have hpred : (!(hasMoreSpecific cands c)) = true ↔
      ∀ d ∈ cands, ¬(c.data <+: d.data ∧ c.length < d.length ∧
        isContChar (d.data.getD c.length ' ') = true) := by
    rw [Bool.not_eq_true', hasMoreSpecific, List.any_eq_false]
    constructor
    · intro h d hd hcon
      have := h d hd
      simp only [Bool.and_eq_true, Bool.not_eq_true', decide_eq_true_eq,
        List.isPrefixOf_iff_prefix] at this
      apply this
      refine ⟨⟨⟨?_, hcon.1⟩, hcon.2.1⟩, hcon.2.2⟩
      · simp only [decide_eq_false_iff_not]
        intro he
        subst he
        exact absurd hcon.2.1 (lt_irrefl _)
    · intro h d hd
      simp only [Bool.and_eq_true, Bool.not_eq_true', decide_eq_true_eq,
        List.isPrefixOf_iff_prefix]
      intro hcon
      exact h d hd ⟨hcon.1.1.2, hcon.1.2, hcon.2⟩
  rw [hpred]

/-! ## C6 and C9: properties of `smart_filename_transform` -/

/-- The set of characters replaced or dropped by the `mapping` dict. -/
def isKey (c : Char) : Bool :=
  c = ' ' || c = ':' || c = '/' || c = '\\' || c = '|' || c = '*' ||
  c = '?' || c = '"' || c = '<' || c = '>'

/-- The net effect of the sequential replacement chain on one character. -/
def mapOne (c : Char) : List Char :=
  if c = ' ' then ['_'] else if c = ':' then ['='] else if c = '/' then ['-']
  else if c = '\\' then ['-'] else if c = '|' then ['-'] else if c = '*' then []
  else if c = '?' then [] else if c = '"' then ['\''] else if c = '<' then []
  else if c = '>' then [] else [c]

theorem applyMapping_nil : applyMapping [] = [] := rfl

theorem applyMapping_cons (c : Char) (l : List Char) :
    applyMapping (c :: l) = mapOne c ++ applyMapping l := by
  by_cases h1 : c = ' '
  · subst h1; simp [applyMapping, replaceAll, removeAll, mapOne]
  by_cases h2 : c = ':'
  · subst h2; simp [applyMapping, replaceAll, removeAll, mapOne]
  by_cases h3 : c = '/'
  · subst h3; simp [applyMapping, replaceAll, removeAll, mapOne]
  by_cases h4 : c = '\\'
  · subst h4; simp [applyMapping, replaceAll, removeAll, mapOne]
  by_cases h5 : c = '|'
  · subst h5; simp [applyMapping, replaceAll, removeAll, mapOne]
  by_cases h6 : c = '*'
  · subst h6; simp [applyMapping, replaceAll, removeAll, mapOne]
  by_cases h7 : c = '?'
  · subst h7; simp [applyMapping, replaceAll, removeAll, mapOne]
  by_cases h8 : c = '"'
  · subst h8; simp [applyMapping, replaceAll, removeAll, mapOne]
  by_cases h9 : c = '<'
  · subst h9; simp [applyMapping, replaceAll, removeAll, mapOne]
  by_cases h10 : c = '>'
  · subst h10; simp [applyMapping, replaceAll, removeAll, mapOne]
  simp [applyMapping, replaceAll, removeAll, mapOne,
    h1, h2, h3, h4, h5, h6, h7, h8, h9, h10]

theorem mem_mapOne_not_key {x c : Char} (h : x ∈ mapOne c) : isKey x = false := by
  unfold mapOne at h
  split at h
  · simp only [List.mem_singleton] at h; subst h; decide
  split at h
  · simp only [List.mem_singleton] at h; subst h; decide
  split at h
  · simp only [List.mem_singleton] at h; subst h; decide
  split at h
  · simp only [List.mem_singleton] at h; subst h; decide
  split at h
  · simp only [List.mem_singleton] at h; subst h; decide
  split at h
  · exact absurd h (List.not_mem_nil x)
  split at h
  · exact absurd h (List.not_mem_nil x)
  split at h
  · simp only [List.mem_singleton] at h; subst h; decide
  split at h
  · exact absurd h (List.not_mem_nil x)
  split at h
  · exact absurd h (List.not_mem_nil x)
  · simp only [List.mem_singleton] at h
    subst h
    rename_i hn1 hn2 hn3 hn4 hn5 hn6 hn7 hn8 hn9 hn10
    simp [isKey, hn1, hn2, hn3, hn4, hn5, hn6, hn7, hn8, hn9, hn10]

theorem mapOne_of_not_key {c : Char} (h : isKey c = false) : mapOne c = [c] := by
  simp only [isKey, Bool.or_eq_false_iff, decide_eq_false_iff_not] at h
  obtain ⟨⟨⟨⟨⟨⟨⟨⟨⟨h1, h2⟩, h3⟩, h4⟩, h5⟩, h6⟩, h7⟩, h8⟩, h9⟩, h10⟩ := h
  simp [mapOne, h1, h2, h3, h4, h5, h6, h7, h8, h9, h10]

theorem mem_applyMapping_not_key {x : Char} {l : List Char}
    (h : x ∈ applyMapping l) : isKey x = false := by
  induction l with
  | nil => rw [applyMapping_nil] at h; exact absurd h (List.not_mem_nil x)
  | cons c t ih =>
      rw [applyMapping_cons] at h
      rcases List.mem_append.mp h with hm | hm
      · exact mem_mapOne_not_key hm
      · exact ih hm

theorem applyMapping_fixpoint {l : List Char}
    (h : ∀ c ∈ l, isKey c = false) : applyMapping l = l := by
  induction l with
  | nil => rfl
  | cons c t ih =>
      rw [applyMapping_cons, mapOne_of_not_key (h c (List.mem_cons_self c t)),
        ih (fun x hx => h x (List.mem_cons_of_mem c hx))]
      rfl

/-- No two adjacent occurrences of the character `c`. -/
def NoTwo (c : Char) (l : List Char) : Prop :=
  List.Chain' (fun a b => ¬(a = c ∧ b = c)) l

theorem collapseRuns_sublist (c : Char) (l : List Char) :
    (collapseRuns c l).Sublist l := by
  induction l with
  | nil => exact List.Sublist.refl []
  | cons a t ih =>
      cases t with
      | nil => exact List.Sublist.refl [a]
      | cons b r =>
          rw [collapseRuns]
          by_cases hab : (a = c && b = c) = true
          · rw [if_pos hab]
            exact List.sublist_cons_of_sublist a ih
          · rw [if_neg hab]
            exact List.Sublist.cons₂ a ih

theorem head?_collapseRuns (c : Char) (l : List Char) :
    (collapseRuns c l).head? = l.head? := by
  induction l with
  | nil => rfl
  | cons a t ih =>
      cases t with
      | nil => rfl
      | cons b r =>
          rw [collapseRuns]
          by_cases hab : (a = c && b = c) = true
          · rw [if_pos hab, ih]
            simp only [Bool.and_eq_true, decide_eq_true_eq] at hab
            simp [hab.1, hab.2]
          · rw [if_neg hab]
            rfl

theorem noTwo_collapseRuns (c : Char) (l : List Char) :
    NoTwo c (collapseRuns c l) := by
  induction l with
  | nil => exact List.chain'_nil
  | cons a t ih =>
      cases t with
      | nil => exact List.chain'_singleton a
      | cons b r =>
          rw [collapseRuns]
          by_cases hab : (a = c && b = c) = true
          · rw [if_pos hab]; exact ih
          · rw [if_neg hab]
            rw [NoTwo, List.chain'_cons']
            refine ⟨?_, ih⟩
            intro y hy
            rw [head?_collapseRuns] at hy
            simp only [List.head?_cons, Option.mem_def, Option.some.injEq] at hy
            subst hy
            simp only [Bool.and_eq_true, decide_eq_true_eq] at hab
            exact hab


theorem noTwo_collapseRuns_other {c c' : Char} {l : List Char}
    (h : NoTwo c l) : NoTwo c (collapseRuns c' l) := by
  induction l with
  | nil => exact List.chain'_nil
  | cons a t ih =>
      cases t with
      | nil => exact List.chain'_singleton a
      | cons b r =>
          rw [collapseRuns]
          by_cases hab : (a = c' && b = c') = true
          · rw [if_pos hab]
            exact ih (List.Chain'.tail h)
          · rw [if_neg hab]
            rw [NoTwo, List.chain'_cons']
            refine ⟨?_, ih (List.Chain'.tail h)⟩
            intro y hy
            rw [head?_collapseRuns] at hy
            simp only [List.head?_cons, Option.mem_def, Option.some.injEq] at hy
            subst hy
            exact (List.chain'_cons.mp h).1

theorem collapseRuns_of_noTwo {c : Char} {l : List Char} (h : NoTwo c l) :
    collapseRuns c l = l := by
  induction l with
  | nil => rfl
  | cons a t ih =>
      cases t with
      | nil => rfl
      | cons b r =>
          rw [collapseRuns]
          have hab : ¬((a = c && b = c) = true) := by
            simp only [Bool.and_eq_true, decide_eq_true_eq]
            exact (List.chain'_cons.mp h).1
          rw [if_neg hab, ih (List.Chain'.tail h)]

theorem stripChars_infixOf (p : Char → Bool) (l : List Char) :
    (stripChars p l) <:+: l := by
  have h1 : (l.dropWhile p) <:+ l := List.dropWhile_suffix p
  have h2 : ((l.dropWhile p).reverse.dropWhile p) <:+ (l.dropWhile p).reverse :=
    List.dropWhile_suffix p
  have h3 : stripChars p l <+: l.dropWhile p := by
    rw [← List.reverse_suffix, stripChars]
    simpa using h2
  exact (h3.isInfix).trans (h1.isInfix)

theorem noTwo_stripChars {c : Char} (p : Char → Bool) {l : List Char}
    (h : NoTwo c l) : NoTwo c (stripChars p l) :=
  List.Chain'.infix h (stripChars_infixOf p l)

theorem head?_dropWhile_not (p : Char → Bool) (l : List Char) {x : Char}
    (h : (l.dropWhile p).head? = some x) : p x = false := by
  induction l with
  | nil => exact absurd h (by simp)
  | cons a t ih =>
      rw [List.dropWhile_cons] at h
      by_cases hpa : p a = true
      · rw [if_pos hpa] at h
        exact ih h
      · rw [if_neg hpa] at h
        simp only [List.head?_cons, Option.some.injEq] at h
        subst h
        exact Bool.not_eq_true _ ▸ hpa

theorem getLast?_suffix_ne_nil {l m : List Char} (h : l <:+ m) (hne : l ≠ []) :
    m.getLast? = l.getLast? := by
  obtain ⟨w, rfl⟩ := h
  rw [List.getLast?_append]
  cases hg : l.getLast? with
  | none => exact absurd (List.getLast?_eq_none_iff.mp hg) hne
  | some z => rfl

theorem stripChars_head_not (p : Char → Bool) (l : List Char) {x : Char}
    (h : (stripChars p l).head? = some x) : p x = false := by
  rw [stripChars, List.head?_reverse] at h
  have hne : (l.dropWhile p).reverse.dropWhile p ≠ [] := by
    intro he
    rw [he] at h
    exact absurd h (by simp)
  have hsuf : ((l.dropWhile p).reverse.dropWhile p) <:+ (l.dropWhile p).reverse :=
    List.dropWhile_suffix p
  rw [← getLast?_suffix_ne_nil hsuf hne, List.getLast?_reverse] at h
  exact head?_dropWhile_not p l h

theorem stripChars_getLast_not (p : Char → Bool) (l : List Char) {x : Char}
    (h : (stripChars p l).getLast? = some x) : p x = false := by
  rw [stripChars, List.getLast?_reverse] at h
  exact head?_dropWhile_not p _ h

theorem stripChars_idem (p : Char → Bool) (l : List Char) :
    stripChars p (stripChars p l) = stripChars p l := by
  have hdrop : (stripChars p l).dropWhile p = stripChars p l := by
    cases hu : stripChars p l with
    | nil => rfl
    | cons a t =>
        have hpa : p a = false := stripChars_head_not p l (by rw [hu]; rfl)
        rw [List.dropWhile_cons, if_neg (by simp [hpa])]
  rw [stripChars, hdrop, stripChars]
  have hdrop2 : ((l.dropWhile p).reverse.dropWhile p).dropWhile p =
      (l.dropWhile p).reverse.dropWhile p := List.dropWhile_idempotent p _
  rw [List.reverse_reverse, hdrop2]

theorem smartTransform_idem (l : List Char) :
    smartTransform (smartTransform l) = smartTransform l := by
  set w2 := collapseRuns '-' (collapseRuns '_' (applyMapping l)) with hw2
  have hkeys : ∀ c ∈ smartTransform l, isKey c = false := by
    intro c hc
    rw [smartTransform, ← hw2] at hc
    have h1 : c ∈ w2 := ((stripChars_infixOf isStripChar w2).sublist).mem hc
    have h2 : c ∈ collapseRuns '_' (applyMapping l) :=
      (collapseRuns_sublist '-' _).mem h1
    have h3 : c ∈ applyMapping l := (collapseRuns_sublist '_' _).mem h2
    exact mem_applyMapping_not_key h3
  have hu : NoTwo '_' (smartTransform l) := by
    rw [smartTransform, ← hw2]
    apply noTwo_stripChars
    rw [hw2]
    exact noTwo_collapseRuns_other (noTwo_collapseRuns '_' _)
  have hh : NoTwo '-' (smartTransform l) := by
    rw [smartTransform, ← hw2]
    apply noTwo_stripChars
    rw [hw2]
    exact noTwo_collapseRuns '-' _
  rw [show smartTransform (smartTransform l) =
      stripChars isStripChar (collapseRuns '-' (collapseRuns '_'
        (applyMapping (smartTransform l)))) from rfl]
  rw [applyMapping_fixpoint hkeys, collapseRuns_of_noTwo hu,
    collapseRuns_of_noTwo hh]
  rw [show smartTransform l = stripChars isStripChar w2 from rfl]
  exact stripChars_idem isStripChar w2

/-- C6: the filename-safe transform is idempotent: applying it twice yields
the same result as applying it once. -/
theorem C6_smart_transform_idempotent (s : String) :
    smart_filename_transform (smart_filename_transform s) =
      smart_filename_transform s := by
  show String.mk (smartTransform (String.mk (smartTransform s.data)).data) =
    String.mk (smartTransform s.data)
  rw [show (String.mk (smartTransform s.data)).data = smartTransform s.data from rfl,
    smartTransform_idem]

/-- C9: the transformed filename contains none of the replaced characters
(space, colon, slash, backslash, pipe, asterisk, question mark, angle
brackets, double quote), and neither its first nor its last character is an
underscore, hyphen or equals sign. -/
theorem C9_smart_transform_output (s : String) :
    (smart_filename_transform s).data.all (fun c => !(isKey c)) = true ∧
    (smart_filename_transform s).data.head?.all (fun c => !(isStripChar c)) = true ∧
    (smart_filename_transform s).data.getLast?.all (fun c => !(isStripChar c)) = true := by
  rw [show (smart_filename_transform s).data = smartTransform s.data from rfl]
  refine ⟨?_, ?_, ?_⟩
  · rw [List.all_eq_true]
    intro c hc
    have h1 : c ∈ collapseRuns '-' (collapseRuns '_' (applyMapping s.data)) :=
      ((stripChars_infixOf isStripChar _).sublist).mem hc
    have h2 : c ∈ applyMapping s.data :=
      (collapseRuns_sublist '_' _).mem ((collapseRuns_sublist '-' _).mem h1)
    simp [mem_applyMapping_not_key h2]
  · cases hh : (smartTransform s.data).head? with
    | none => rfl
    | some x =>
        rw [smartTransform] at hh
        simp [Option.all, stripChars_head_not isStripChar _ hh]
  · cases hh : (smartTransform s.data).getLast? with
    | none => rfl
    | some x =>
        rw [smartTransform] at hh
        simp [Option.all, stripChars_getLast_not isStripChar _ hh]

end PaperRename
